import Mathlib

/-!
Verification of the schedule-DM bot (`main.py`) against its specification.

Shallow embedding conventions:
* Instants are integers counting seconds since an epoch (the code's
  `datetime` values are second-granular on every path that matters: the
  scheduled instant is built from whole hour/minute fields, so its
  second and microsecond components are 0 by construction, and flooring
  `now` to whole seconds changes neither the day-start computation nor
  the `run_local <= now_local` comparison against a whole-second
  `run_local`).
* The configured timezone (`pytz.timezone(DEFAULT_TZ)`, default
  `Asia/Riyadh`, a fixed-offset zone in the present era) is modelled as
  a fixed UTC offset `off` in seconds; local time = UTC + `off`.
* Fallible code returns `Option`.
-/

namespace FluffyBot

/-! ## Time parsing: `datetime.strptime(time_str.strip(), "%I:%M %p")`

The `_strptime` regex for this format is
`(1[0-2]|0[1-9]|[1-9]):([0-5]\d|\d)\s+(AM|PM)` (case-insensitive on the
AM/PM marker), anchored at both ends, applied after `str.strip()`.
The alternations are deterministic here because a failed continuation
after a two-digit hour/minute can never be rescued by backtracking to
the one-digit alternative (the extra digit is never `:` or whitespace).
-/

/-- Numeric value of a digit character. -/
def digitVal (c : Char) : Nat := c.toNat - 48

/-- Tests whether `c` lies in the inclusive character range `lo`..`hi`. -/
def isDigitIn (lo hi c : Char) : Bool :=
  decide (lo.toNat ≤ c.toNat ∧ c.toNat ≤ hi.toNat)

/-- Parses the `%I` field (hour 1..12, one or two digits), returning the
hour and the remaining characters. -/
def parseHour : List Char → Option (Nat × List Char)
  | [] => none
  | c1 :: l1 =>
    match l1 with
    | c2 :: l2 =>
      if c1 = '1' ∧ isDigitIn '0' '2' c2 then some (10 + digitVal c2, l2)
      else if c1 = '0' ∧ isDigitIn '1' '9' c2 then some (digitVal c2, l2)
      else if isDigitIn '1' '9' c1 then some (digitVal c1, c2 :: l2)
      else none
    | [] => if isDigitIn '1' '9' c1 then some (digitVal c1, []) else none

/-- Parses the `%M` field (minute 0..59, one or two digits). -/
def parseMinute : List Char → Option (Nat × List Char)
  | [] => none
  | c1 :: l1 =>
    match l1 with
    | c2 :: l2 =>
      if isDigitIn '0' '5' c1 ∧ isDigitIn '0' '9' c2 then
        some (10 * digitVal c1 + digitVal c2, l2)
      else if isDigitIn '0' '9' c1 then some (digitVal c1, c2 :: l2)
      else none
    | [] => if isDigitIn '0' '9' c1 then some (digitVal c1, []) else none

/-- Parses the `\s+` separator of the format (one or more whitespace). -/
def skipWs1 : List Char → Option (List Char)
  | [] => none
  | c :: rest =>
    if c.isWhitespace then some (rest.dropWhile Char.isWhitespace) else none

/-- Parses the `%p` field: `AM`/`PM`, case-insensitively; `true` means PM. -/
def parseAmPm : List Char → Option (Bool × List Char)
  | a :: m :: rest =>
    if (a = 'A' ∨ a = 'a') ∧ (m = 'M' ∨ m = 'm') then some (false, rest)
    else if (a = 'P' ∨ a = 'p') ∧ (m = 'M' ∨ m = 'm') then some (true, rest)
    else none
  | _ => none

/-- Python `str.strip()`: removes leading and trailing whitespace. -/
def stripChars (l : List Char) : List Char :=
  ((l.dropWhile Char.isWhitespace).reverse.dropWhile Char.isWhitespace).reverse

/-- Full `strptime(s.strip(), "%I:%M %p")` field extraction: 12-hour
hour, minute, and the PM flag.  `none` models the `ValueError`. -/
def parseFields (s : String) : Option (Nat × Nat × Bool) :=
  match parseHour (stripChars s.data) with
  | none => none
  | some (h, l1) =>
    match l1 with
    | [] => none
    | c :: l2 =>
      if c = ':' then
        match parseMinute l2 with
        | none => none
        | some (m, l3) =>
          match skipWs1 l3 with
          | none => none
          | some l4 =>
            match parseAmPm l4 with
            | none => none
            | some (pm, l5) => if l5.isEmpty then some (h, m, pm) else none
      else none

/-- The `%I`+`%p` to 24-hour conversion performed inside `strptime`. -/
def to24 (h12 : Nat) (pm : Bool) : Nat :=
  if pm then (if h12 = 12 then 12 else h12 + 12)
  else (if h12 = 12 then 0 else h12)

/-- What `datetime.strptime(time_str.strip(), "%I:%M %p").time()` yields:
the 24-hour hour and the minute. -/
def parseTime12h (s : String) : Option (Nat × Nat) :=
  (parseFields s).map fun f => (to24 f.1 f.2.2, f.2.1)

/-! ## `parse_time_12h_to_utc` and `pretty_time_local` -/

/-- Embedding of `parse_time_12h_to_utc`: parse the string; combine with
the current local calendar date; if the resulting local instant is at or
before the current local instant, add one day; convert back to UTC.
`off` is the fixed UTC offset of the configured timezone in seconds,
`now` the current UTC instant in epoch seconds. -/
def parse_time_12h_to_utc (off now : Int) (timeStr : String) : Option Int :=
  (parseTime12h timeStr).map fun hm =>
    let nowLocal : Int := now + off
    let dayStart : Int := nowLocal - nowLocal % 86400
    let run0 : Int := dayStart + (hm.1 : Int) * 3600 + (hm.2 : Int) * 60
    let runLocal : Int := if run0 ≤ nowLocal then run0 + 86400 else run0
    runLocal - off

/-- Local wall-clock hour (24-hour) of a UTC instant `u` under offset `off`. -/
def localHour (off u : Int) : Int := ((u + off) % 86400) / 3600

/-- Local wall-clock minute of a UTC instant. -/
def localMinute (off u : Int) : Int := (((u + off) % 86400) % 3600) / 60

/-- Local wall-clock second of a UTC instant. -/
def localSecond (off u : Int) : Int := (u + off) % 60

/-- Local calendar day number (days since the epoch day) of a UTC instant. -/
def localDay (off u : Int) : Int := (u + off) / 86400

/-- The hour rendered by `strftime("%I")`: 12-hour clock. -/
def local_hour12 (off u : Int) : Int :=
  if (localHour off u) % 12 = 0 then 12 else (localHour off u) % 12

/-- Whether `strftime("%p")` renders `PM` for the local time of `u`. -/
def local_isPM (off u : Int) : Bool := decide (12 ≤ localHour off u)

/-- Zero-padded two-digit rendering used by `strftime` fields. -/
def pad2 (n : Int) : String := (if n < 10 then "0" else "") ++ toString n

/-- Proleptic-Gregorian civil date from a day number (days since
1970-01-01), as used by `datetime`'s calendar. -/
def civilFromDays (z0 : Int) : Int × Int × Int :=
  let z := z0 + 719468
  let era := z / 146097
  let doe := z % 146097
  let yoe := (doe - doe / 1460 + doe / 36524 - doe / 146096) / 365
  let y := yoe + era * 400
  let doy := doe - (365 * yoe + yoe / 4 - yoe / 100)
  let mp := (5 * doy + 2) / 153
  let d := doy - (153 * mp + 2) / 5 + 1
  let mo := if mp < 10 then mp + 3 else mp - 9
  (if mo ≤ 2 then y + 1 else y, mo, d)

/-- The `%Y-%m-%d` part of `pretty_time_local`. -/
def localDateString (off u : Int) : String :=
  let c := civilFromDays (localDay off u)
  toString c.1 ++ "-" ++ pad2 c.2.1 ++ "-" ++ pad2 c.2.2

/-- Embedding of `pretty_time_local`: convert the stored UTC instant to
the configured timezone and render `"%Y-%m-%d %I:%M %p"`. -/
def pretty_time_local (off u : Int) : String :=
  localDateString off u ++ " " ++ pad2 (local_hour12 off u) ++ ":" ++
    pad2 (localMinute off u) ++ " " ++ (if local_isPM off u then "PM" else "AM")

/-! ## Persistence store

One table of schedule records (`CREATE TABLE schedules ...`): `id SERIAL`,
`status TEXT DEFAULT 'pending'`, `created_at DEFAULT now()`.  A store is
the list of rows in insertion order plus the sequence counter. -/

/-- The four values the code writes into the `status` column. -/
inductive Status where
  | pending
  | sent
  | failed
  | canceled
deriving DecidableEq, Repr

/-- One row of the `schedules` table. -/
structure Schedule where
  id : Nat
  user_id : Nat
  message : Option String
  attachment_url : Option String
  run_at : Int
  status : Status
  created_at : Int
deriving DecidableEq, Repr

/-- The `schedules` table: rows in insertion order, next `SERIAL` value. -/
structure Store where
  recs : List Schedule
  nextId : Nat
deriving DecidableEq, Repr

/-- The empty table; Postgres `SERIAL` starts at 1. -/
def Store.empty : Store := ⟨[], 1⟩

/-- Embedding of `add_schedule`: `INSERT ... RETURNING id`, with the
column defaults `status='pending'` and `created_at=now()`. -/
def add_schedule (st : Store) (uid : Nat) (run_at_utc : Int)
    (message attachment_url : Option String) (now : Int) : Store × Nat :=
  (⟨st.recs ++ [⟨st.nextId, uid, message, attachment_url, run_at_utc, .pending, now⟩],
    st.nextId + 1⟩, st.nextId)

/-- Row order used by `ORDER BY run_at ASC`. -/
def runAtLE (a b : Schedule) : Prop := a.run_at ≤ b.run_at

instance : DecidableRel runAtLE := fun a b =>
  inferInstanceAs (Decidable (a.run_at ≤ b.run_at))

instance : IsTotal Schedule runAtLE := ⟨fun a b => Int.le_total a.run_at b.run_at⟩

instance : IsTrans Schedule runAtLE := ⟨fun _ _ _ => Int.le_trans⟩

/-- Embedding of `fetch_due`: `SELECT * WHERE status='pending' AND
run_at <= now() ORDER BY run_at ASC LIMIT $1` (a stable ascending sort
models the `ORDER BY`). -/
def fetch_due (st : Store) (now : Int) (limit : Nat) : List Schedule :=
  (List.insertionSort runAtLE
    (st.recs.filter fun r => decide (r.status = .pending ∧ r.run_at ≤ now))).take limit

/-- Embedding of `mark_sent`: `UPDATE schedules SET status=$1 WHERE id=$2`
(unconditional). -/
def mark_sent (st : Store) (sid : Nat) (status : Status) : Store :=
  ⟨st.recs.map fun r => if r.id = sid then { r with status := status } else r,
    st.nextId⟩

/-- Embedding of `get_schedule`: `SELECT * WHERE id=$1` (first match). -/
def get_schedule (st : Store) (sid : Nat) : Option Schedule :=
  st.recs.find? fun r => r.id == sid

/-- Embedding of `get_all_schedules`: `SELECT * ORDER BY run_at ASC`. -/
def get_all_schedules (st : Store) : List Schedule :=
  List.insertionSort runAtLE st.recs

/-- Embedding of `cancel_schedule`: the compare-and-set
`UPDATE ... SET status='canceled' WHERE id=$1 AND status='pending'`,
returning the number of affected rows. -/
def cancel_schedule (st : Store) (sid : Nat) : Store × Nat :=
  (⟨st.recs.map fun r =>
      if r.id = sid ∧ r.status = .pending then { r with status := .canceled } else r,
    st.nextId⟩,
   (st.recs.filter fun r => decide (r.id = sid ∧ r.status = .pending)).length)

/-- Status of the row with the given id, if any. -/
def statusOf (st : Store) (sid : Nat) : Option Status :=
  (get_schedule st sid).map Schedule.status

/-! ## Delivery dispatcher (`process_due`)

The per-record delivery attempt (`bot.fetch_user`, optional
`download_bytes`, `user.send`) is an external effect; it is modelled by
an environment `env : Nat → Option String` giving, per record id,
`none` for success or `some e` for a raised exception with message `e`.
The `print` diagnostic becomes an accumulated log of strings. -/

/-- The diagnostic line printed by the `except` branch of `process_due`. -/
def deliver_log (sid uid : Nat) (e : String) : String :=
  "Failed to send schedule " ++ toString sid ++ " to " ++ toString uid ++ ": " ++ e

/-- One iteration of the `for row in rows` loop of `process_due`. -/
def process_one (env : Nat → Option String) (acc : Store × List String)
    (row : Schedule) : Store × List String :=
  match env row.id with
  | none => (mark_sent acc.1 row.id .sent, acc.2)
  | some e =>
    (mark_sent acc.1 row.id .failed, acc.2 ++ [deliver_log row.id row.user_id e])

/-- Embedding of `process_due`: fetch up to 30 due rows, then for each
row try to deliver; on success mark it `sent`, on any exception mark it
`failed` and log the diagnostic, continuing with the next row. -/
def process_due (env : Nat → Option String) (st : Store) (now : Int) :
    Store × List String :=
  (fetch_due st now 30).foldl (process_one env) (st, [])

/-! ## System step relation

The poll loop (`scheduler_loop` / `process_due`) runs on the same event
loop as the slash-command handlers; the `await` points inside
`process_due`'s per-record body let a `/cancel` interaction run between
the tick's `fetch_due` and a record's `mark_sent`.  The step relation
makes this explicit: `tick_start` performs the tick's `fetch_due`
(ticks do not overlap, so only when no batch is in flight), `deliver`
processes the next in-flight record, and the other operations are the
store writes the command surface performs. -/

/-- System state: the table plus the records fetched by the tick in
progress and not yet marked. -/
structure Sys where
  store : Store
  inflight : List Schedule
deriving DecidableEq, Repr

/-- Store-level operations of the program. -/
inductive Op where
  | add (uid : Nat) (run_at : Int) (msg att : Option String) (now : Int)
  | tick_start (now : Int)
  | deliver (ok : Bool)
  | cancel (sid : Nat)

/-- The initial system: empty table, no tick in progress. -/
def Sys.initial : Sys := ⟨Store.empty, []⟩

/-- One atomic store operation. -/
def Sys.step (s : Sys) (op : Op) : Sys :=
  match op with
  | .add uid t msg att now => { s with store := (add_schedule s.store uid t msg att now).1 }
  | .tick_start now =>
    if s.inflight.isEmpty then { s with inflight := fetch_due s.store now 30 } else s
  | .deliver ok =>
    match s.inflight with
    | [] => s
    | r :: rest =>
      ⟨mark_sent s.store r.id (if ok then .sent else .failed), rest⟩
  | .cancel sid => { s with store := (cancel_schedule s.store sid).1 }

/-- Runs a sequence of operations. -/
def Sys.run (s : Sys) (ops : List Op) : Sys := ops.foldl Sys.step s

/-! ## Store well-formedness

The invariant reachable states satisfy: table ids are unique and below
the sequence counter, the in-flight batch has unique ids, and every
in-flight record is currently `pending` (fetched that way) or
`canceled` (a `/cancel` landed after the fetch, before the mark). -/

/-- Well-formedness of the table: unique ids, all below the counter. -/
def StoreWF (st : Store) : Prop :=
  (st.recs.map Schedule.id).Nodup ∧ ∀ r ∈ st.recs, r.id < st.nextId

/-- Well-formedness of a system state. -/
def SysWF (s : Sys) : Prop :=
  StoreWF s.store ∧ (s.inflight.map Schedule.id).Nodup ∧
    ∀ r ∈ s.inflight, statusOf s.store r.id = some .pending ∨
      statusOf s.store r.id = some .canceled

/-! ## Command surface -/

/-- Replies of the `/scheduledm` handler. -/
inductive ScheduleReply where
  | invalidTime
  | scheduled (sid : Nat) (display : String)
deriving DecidableEq, Repr

/-- Embedding of `slash_scheduledm`: parse the time; on `ValueError`
reply with the validation message and return without touching the
store; otherwise insert the record (message and attachment URL exactly
as given) and reply with the id and local-time display.  `fileUrl` is
`file.url if file else None`. -/
def slash_scheduledm (off now : Int) (st : Store) (uid : Nat) (time : String)
    (message fileUrl : Option String) : Store × ScheduleReply :=
  match parse_time_12h_to_utc off now time with
  | none => (st, .invalidTime)
  | some runUtc =>
    let res := add_schedule st uid runUtc message fileUrl now
    (res.1, .scheduled res.2 (pretty_time_local off runUtc))

/-- Replies of the `/cancel` handler. -/
inductive CancelReply where
  | notFound
  | alreadyStatus (st : Status)
  | canceledOk (sid : Nat)
deriving DecidableEq, Repr

/-- Embedding of `slash_cancel`: look the record up; not found → a
not-found reply; status not `pending` → an already-`status` reply with
no mutation; otherwise the conditional `cancel_schedule` update and a
confirmation. -/
def slash_cancel (st : Store) (sid : Nat) : Store × CancelReply :=
  match get_schedule st sid with
  | none => (st, .notFound)
  | some r =>
    if r.status ≠ .pending then (st, .alreadyStatus r.status)
    else ((cancel_schedule st sid).1, .canceledOk sid)

/-! ## Attachment filename (`download_bytes`)

`filename = url.split("?")[0].split("/")[-1] or "file"`. -/

/-- Python `str.split(sep)` for a one-character separator.  The result
is always nonempty, so prepending to its head models extending the
first field. -/
def splitChar (c : Char) : List Char → List (List Char)
  | [] => [[]]
  | x :: xs =>
    let r := splitChar c xs
    if x = c then [] :: r else (x :: r.headD []) :: r.tail

/-- The filename computed by `download_bytes`:
`url.split("?")[0].split("/")[-1] or "file"`. -/
def filename_of_url (l : List Char) : List Char :=
  let base := (splitChar '?' l).headD []
  let name := (splitChar '/' base).getLastD []
  if name.isEmpty then "file".data else name

/-- The filename as the specification words it: the last path segment of
the URL with any query string stripped, or the generic name `file` when
that segment is empty. -/
def filename_spec (l : List Char) : List Char :=
  let base := l.takeWhile fun x => x != '?'
  let name := (base.reverse.takeWhile fun x => x != '/').reverse
  if name.isEmpty then "file".data else name

example : filename_of_url "https://cdn.exa/x/report.pdf?tok=1".data = "report.pdf".data := by decide
example : filename_of_url "https://cdn.exa/x/".data = "file".data := by decide
example : (splitChar '?' "a?b?c".data).headD [] = "a".data := by decide

example : parseFields "02:30 PM" = some (2, 30, true) := by decide
example : parseFields " 2:30 pm " = some (2, 30, true) := by decide
example : parseFields "12:05 AM" = some (12, 5, false) := by decide
example : parseFields "25:99" = none := by decide
example : parseFields "00:30 PM" = none := by decide
example : parseFields "13:30 PM" = none := by decide
example : parseFields "02:60 PM" = none := by decide
example : parseFields "02:30PM" = none := by decide
example : parseTime12h "12:05 AM" = some (0, 5) := by decide
example : parse_time_12h_to_utc 10800 0 "02:30 PM" = some 41400 := by decide
example : pretty_time_local 10800 41400 = "1970-01-01 02:30 PM" := by decide

/-! ## Parser bounds -/

theorem isDigitIn_val {lo hi c : Char} (h : isDigitIn lo hi c = true) :
    lo.toNat ≤ c.toNat ∧ c.toNat ≤ hi.toNat := by
  simpa [isDigitIn] using h

theorem parseHour_bounds {l rest : List Char} {h : Nat}
    (hp : parseHour l = some (h, rest)) : 1 ≤ h ∧ h ≤ 12 := by
  match l with
  | [] => simp [parseHour] at hp
  | c1 :: [] =>
    simp only [parseHour] at hp
    split at hp
    · next hd =>
      obtain ⟨a1, a2⟩ := isDigitIn_val hd
      have e1 : ('1').toNat = 49 := rfl
      have e2 : ('9').toNat = 57 := rfl
      obtain ⟨rfl, -⟩ : digitVal c1 = h ∧ ([] : List Char) = rest := by
        simpa using hp
      unfold digitVal; omega
    · simp at hp
  | c1 :: c2 :: l2 =>
    simp only [parseHour] at hp
    split at hp
    · next hd =>
      obtain ⟨a1, a2⟩ := isDigitIn_val hd.2
      have e1 : ('0').toNat = 48 := rfl
      have e2 : ('2').toNat = 50 := rfl
      obtain ⟨rfl, -⟩ : 10 + digitVal c2 = h ∧ l2 = rest := by simpa using hp
      unfold digitVal; omega
    · split at hp
      · next hd =>
        obtain ⟨a1, a2⟩ := isDigitIn_val hd.2
        have e1 : ('1').toNat = 49 := rfl
        have e2 : ('9').toNat = 57 := rfl
        obtain ⟨rfl, -⟩ : digitVal c2 = h ∧ l2 = rest := by simpa using hp
        unfold digitVal; omega
      · split at hp
        · next hd =>
          obtain ⟨a1, a2⟩ := isDigitIn_val hd
          have e1 : ('1').toNat = 49 := rfl
          have e2 : ('9').toNat = 57 := rfl
          obtain ⟨rfl, -⟩ : digitVal c1 = h ∧ c2 :: l2 = rest := by simpa using hp
          unfold digitVal; omega
        · simp at hp

theorem parseMinute_bounds {l rest : List Char} {m : Nat}
    (hp : parseMinute l = some (m, rest)) : m ≤ 59 := by
  match l with
  | [] => simp [parseMinute] at hp
  | c1 :: [] =>
    simp only [parseMinute] at hp
    split at hp
    · next hd =>
      obtain ⟨a1, a2⟩ := isDigitIn_val hd
      have e1 : ('0').toNat = 48 := rfl
      have e2 : ('9').toNat = 57 := rfl
      obtain ⟨rfl, -⟩ : digitVal c1 = m ∧ ([] : List Char) = rest := by
        simpa using hp
      unfold digitVal; omega
    · simp at hp
  | c1 :: c2 :: l2 =>
    simp only [parseMinute] at hp
    split at hp
    · next hd =>
      obtain ⟨a1, a2⟩ := isDigitIn_val hd.1
      obtain ⟨b1, b2⟩ := isDigitIn_val hd.2
      have e1 : ('0').toNat = 48 := rfl
      have e2 : ('5').toNat = 53 := rfl
      have e3 : ('9').toNat = 57 := rfl
      obtain ⟨rfl, -⟩ : 10 * digitVal c1 + digitVal c2 = m ∧ l2 = rest := by
        simpa using hp
      unfold digitVal; omega
    · split at hp
      · next hd =>
        obtain ⟨a1, a2⟩ := isDigitIn_val hd
        have e1 : ('0').toNat = 48 := rfl
        have e2 : ('9').toNat = 57 := rfl
        obtain ⟨rfl, -⟩ : digitVal c1 = m ∧ c2 :: l2 = rest := by simpa using hp
        unfold digitVal; omega
      · simp at hp

theorem parseFields_bounds {s : String} {h12 m : Nat} {pm : Bool}
    (hp : parseFields s = some (h12, m, pm)) :
    1 ≤ h12 ∧ h12 ≤ 12 ∧ m ≤ 59 := by
  unfold parseFields at hp
  cases e1 : parseHour (stripChars s.data) with
  | none => rw [e1] at hp; simp at hp
  | some v =>
    obtain ⟨h, l1⟩ := v
    rw [e1] at hp
    rcases l1 with - | ⟨c, l2⟩
    · simp at hp
    · by_cases ec : c = ':'
      · simp only [ec, if_true, reduceIte] at hp
        cases e2 : parseMinute l2 with
        | none => rw [e2] at hp; simp at hp
        | some w =>
          obtain ⟨mv, l3⟩ := w
          simp only [e2] at hp
          cases e3 : skipWs1 l3 with
          | none => rw [e3] at hp; simp at hp
          | some l4 =>
            simp only [e3] at hp
            cases e4 : parseAmPm l4 with
            | none => rw [e4] at hp; simp at hp
            | some z =>
              obtain ⟨pmv, l5⟩ := z
              simp only [e4] at hp
              by_cases e5 : l5.isEmpty <;> simp [e5] at hp
              obtain ⟨rfl, rfl, rfl⟩ := hp
              exact ⟨(parseHour_bounds e1).1, (parseHour_bounds e1).2,
                parseMinute_bounds e2⟩
      · simp [ec] at hp

theorem to24_bounds {h12 : Nat} (pm : Bool) (h1 : 1 ≤ h12) (h2 : h12 ≤ 12) :
    to24 h12 pm ≤ 23 := by
  unfold to24; rcases pm <;> simp <;> split <;> omega

/-! ## Wall-clock facts about `parse_time_12h_to_utc` -/

theorem parse_time_wallclock (off now : Int) (s : String) (h m : Nat)
    (hh : h ≤ 23) (hm : m ≤ 59) (hT : parseTime12h s = some (h, m)) :
    ∃ u, parse_time_12h_to_utc off now s = some u ∧
      localHour off u = (h : Int) ∧ localMinute off u = (m : Int) ∧
      now < u ∧
      localDay off u =
        (if (now + off) % 86400 < (h : Int) * 3600 + (m : Int) * 60
         then localDay off now else localDay off now + 1) ∧
      ((60 : Int) ∣ off → u % 60 = 0 ∧ localSecond off u = 0) := by
  have hEq : parse_time_12h_to_utc off now s =
      some ((if now + off - (now + off) % 86400 + (h : Int) * 3600 + (m : Int) * 60
                ≤ now + off
             then now + off - (now + off) % 86400 + (h : Int) * 3600 + (m : Int) * 60
                + 86400
             else now + off - (now + off) % 86400 + (h : Int) * 3600 + (m : Int) * 60)
            - off) := by
    unfold parse_time_12h_to_utc
    rw [hT]
    rfl
  refine ⟨_, hEq, ?_, ?_, ?_, ?_, ?_⟩
  · unfold localHour
    split <;> omega
  · unfold localMinute
    split <;> omega
  · split <;> omega
  · unfold localDay
    split <;> split <;> omega
  · rintro ⟨k, rfl⟩
    unfold localSecond
    split <;> constructor <;> omega

theorem parseTime12h_bounds {s : String} {h m : Nat}
    (hT : parseTime12h s = some (h, m)) : h ≤ 23 ∧ m ≤ 59 := by
  unfold parseTime12h at hT
  cases hp : parseFields s with
  | none => rw [hp] at hT; simp at hT
  | some f =>
    obtain ⟨h12, mi, pm⟩ := f
    rw [hp] at hT
    simp only [Option.map_some', Option.some.injEq, Prod.mk.injEq] at hT
    obtain ⟨rfl, rfl⟩ := hT
    obtain ⟨b1, b2, b3⟩ := parseFields_bounds hp
    exact ⟨to24_bounds pm b1 b2, b3⟩

/-- C1: for every string accepted by the strict 12-hour parser and every
fixed current instant, `parse_time_12h_to_utc` returns a UTC instant
whose wall-clock time in the configured timezone is exactly the parsed
hour and minute, which is strictly greater than the current instant,
and which falls on the current local calendar day when the input
time-of-day is strictly later than the current local wall-clock
time-of-day, and on the next calendar day otherwise (in particular a
time equal to the current instant goes to tomorrow, because the code
advances a day whenever `run_local <= now_local`). -/
theorem parse_time_12h_to_utc_correct (off now : Int) (s : String)
    (h12 mi : Nat) (pm : Bool) (hp : parseFields s = some (h12, mi, pm)) :
    ∃ u, parse_time_12h_to_utc off now s = some u ∧
      localHour off u = (to24 h12 pm : Int) ∧
      localMinute off u = (mi : Int) ∧
      now < u ∧
      localDay off u =
        (if (now + off) % 86400 < (to24 h12 pm : Int) * 3600 + (mi : Int) * 60
         then localDay off now else localDay off now + 1) := by
  obtain ⟨b1, b2, b3⟩ := parseFields_bounds hp
  have hT : parseTime12h s = some (to24 h12 pm, mi) := by
    simp [parseTime12h, hp]
  obtain ⟨u, h1, h2, h3, h4, h5, -⟩ :=
    parse_time_wallclock off now s _ _ (to24_bounds pm b1 b2) b3 hT
  exact ⟨u, h1, h2, h3, h4, h5⟩

/-- Witness for C1 at the concrete input `"02:30 PM"` with offset +03:00
(10800 s) and a concrete current instant. -/
theorem parse_time_12h_to_utc_correct_witness :
    ∃ u, parse_time_12h_to_utc 10800 1700000000 "02:30 PM" = some u ∧
      localHour 10800 u = (to24 2 true : Int) ∧
      localMinute 10800 u = (30 : Int) ∧
      (1700000000 : Int) < u ∧
      localDay 10800 u =
        (if ((1700000000 : Int) + 10800) % 86400 <
             (to24 2 true : Int) * 3600 + (30 : Int) * 60
         then localDay 10800 1700000000 else localDay 10800 1700000000 + 1) :=
  parse_time_12h_to_utc_correct 10800 1700000000 "02:30 PM" 2 30 true (by decide)

/-- C6: round-trip.  For every accepted 12-hour string and every fixed
current instant, the stored UTC instant renders back (via the
components `pretty_time_local` displays: `local_hour12`, `localMinute`,
`local_isPM`) to exactly the input's 12-hour hour, minute, and AM/PM
marker. -/
theorem pretty_roundtrip (off now : Int) (s : String) (h12 mi : Nat) (pm : Bool)
    (hp : parseFields s = some (h12, mi, pm)) :
    ∃ u, parse_time_12h_to_utc off now s = some u ∧
      local_hour12 off u = (h12 : Int) ∧
      localMinute off u = (mi : Int) ∧
      local_isPM off u = pm := by
  obtain ⟨b1, b2, b3⟩ := parseFields_bounds hp
  have hT : parseTime12h s = some (to24 h12 pm, mi) := by
    simp [parseTime12h, hp]
  obtain ⟨u, h1, h2, h3, -, -, -⟩ :=
    parse_time_wallclock off now s _ _ (to24_bounds pm b1 b2) b3 hT
  refine ⟨u, h1, ?_, h3, ?_⟩
  · unfold local_hour12
    rw [h2]
    interval_cases h12 <;> rcases pm <;> decide
  · unfold local_isPM
    rw [h2]
    interval_cases h12 <;> rcases pm <;> decide

/-- Witness for C6 at the concrete input `"11:59 PM"`. -/
theorem pretty_roundtrip_witness :
    ∃ u, parse_time_12h_to_utc 10800 1700000000 "11:59 PM" = some u ∧
      local_hour12 10800 u = (11 : Int) ∧
      localMinute 10800 u = (59 : Int) ∧
      local_isPM 10800 u = true :=
  pretty_roundtrip 10800 1700000000 "11:59 PM" 11 59 true (by decide)

/-- C10: every instant produced by `parse_time_12h_to_utc` sits on a
whole-minute boundary, both as a UTC epoch value and as a local
wall-clock time, whatever the seconds component of the current instant
(the configured timezone's offset is a whole number of minutes). -/
theorem run_at_whole_minute (off now : Int) (s : String) (u : Int)
    (hoff : (60 : Int) ∣ off) (hu : parse_time_12h_to_utc off now s = some u) :
    u % 60 = 0 ∧ localSecond off u = 0 := by
  cases hT : parseTime12h s with
  | none => unfold parse_time_12h_to_utc at hu; rw [hT] at hu; simp at hu
  | some hm =>
    obtain ⟨h, m⟩ := hm
    obtain ⟨bh, bm⟩ := parseTime12h_bounds hT
    obtain ⟨v, h1, -, -, -, -, h6⟩ := parse_time_wallclock off now s h m bh bm hT
    rw [h1] at hu
    rw [Option.some.inj hu] at h6
    exact h6 hoff

/-- Witness for C10: `"02:30 PM"` at offset +03:00 and now = 17, a
current instant that is not itself on a minute boundary. -/
theorem run_at_whole_minute_witness :
    (41400 : Int) % 60 = 0 ∧ localSecond 10800 41400 = 0 :=
  run_at_whole_minute 10800 17 "02:30 PM" 41400 (by decide) (by decide)

/-! ## Store lemmas -/

theorem find?_id_map (f : Schedule → Schedule) (hf : ∀ r, (f r).id = r.id)
    (l : List Schedule) (sid : Nat) :
    ((l.map f).find? fun r => r.id == sid) =
      (l.find? fun r => r.id == sid).map f := by
  induction l with
  | nil => rfl
  | cons r rs ih =>
    by_cases h : r.id = sid
    · rw [List.map_cons, List.find?_cons_of_pos _ (by simp [hf, h]),
        List.find?_cons_of_pos _ (by simp [h])]
      rfl
    · rw [List.map_cons, List.find?_cons_of_neg _ (by simp [hf, h]),
        List.find?_cons_of_neg _ (by simp [h])]
      exact ih

theorem statusOf_mark (st : Store) (sid' : Nat) (stt : Status) (sid : Nat) :
    statusOf (mark_sent st sid' stt) sid =
      (statusOf st sid).map fun t => if sid = sid' then stt else t := by
  unfold statusOf mark_sent get_schedule
  rw [find?_id_map _ (fun r => by split <;> rfl)]
  cases hf : st.recs.find? fun r => r.id == sid with
  | none => rfl
  | some r =>
    have hid : r.id = sid := by simpa using List.find?_some hf
    simp only [Option.map_some']
    by_cases h : sid = sid' <;> simp [h, hid]

theorem statusOf_cancel (st : Store) (sid' sid : Nat) :
    statusOf (cancel_schedule st sid').1 sid =
      (statusOf st sid).map fun t =>
        if sid = sid' ∧ t = .pending then .canceled else t := by
  unfold statusOf cancel_schedule get_schedule
  rw [find?_id_map _ (fun r => by split <;> rfl)]
  cases hf : st.recs.find? fun r => r.id == sid with
  | none => rfl
  | some r =>
    have hid : r.id = sid := by simpa using List.find?_some hf
    simp only [Option.map_some']
    by_cases h1 : sid = sid' <;> by_cases h2 : r.status = Status.pending <;>
      simp [h1, h2, hid]

theorem statusOf_add (st : Store) (uid : Nat) (t : Int) (msg att : Option String)
    (now : Int) (sid : Nat) (r : Status) (h : statusOf st sid = some r) :
    statusOf (add_schedule st uid t msg att now).1 sid = some r := by
  unfold statusOf add_schedule get_schedule at *
  rw [List.find?_append]
  cases hf : st.recs.find? fun x => x.id == sid with
  | none => rw [hf] at h; simp at h
  | some x => rw [hf] at h; simpa using h

theorem find?_id_of_mem {l : List Schedule} (hnd : (l.map Schedule.id).Nodup)
    {r : Schedule} (hr : r ∈ l) : (l.find? fun x => x.id == r.id) = some r := by
  induction l with
  | nil => cases hr
  | cons x xs ih =>
    simp only [List.map_cons, List.nodup_cons] at hnd
    rcases List.mem_cons.mp hr with rfl | h2
    · rw [List.find?_cons_of_pos _ (by simp)]
    · have hne : x.id ≠ r.id := fun e => hnd.1 (e ▸ List.mem_map_of_mem _ h2)
      rw [List.find?_cons_of_neg _ (by simp [hne])]
      exact ih hnd.2 h2

theorem get_schedule_of_mem {st : Store} (hnd : (st.recs.map Schedule.id).Nodup)
    {r : Schedule} (hr : r ∈ st.recs) : get_schedule st r.id = some r :=
  find?_id_of_mem hnd hr

theorem mem_fetch_due {st : Store} {now : Int} {limit : Nat} {r : Schedule}
    (h : r ∈ fetch_due st now limit) :
    r ∈ st.recs ∧ r.status = .pending ∧ r.run_at ≤ now := by
  unfold fetch_due at h
  have h1 := List.mem_of_mem_take h
  have h2 := (List.perm_insertionSort runAtLE _).mem_iff.mp h1
  have h3 := List.mem_filter.mp h2
  exact ⟨h3.1, by simpa using h3.2⟩

theorem fetch_due_ids_nodup {st : Store} (hnd : (st.recs.map Schedule.id).Nodup)
    (now : Int) (limit : Nat) :
    ((fetch_due st now limit).map Schedule.id).Nodup := by
  unfold fetch_due
  have h1 : ((st.recs.filter fun r =>
      decide (r.status = .pending ∧ r.run_at ≤ now)).map Schedule.id).Nodup :=
    List.Nodup.sublist (List.Sublist.map _ (List.filter_sublist _)) hnd
  have h2 := ((List.perm_insertionSort runAtLE
    (st.recs.filter fun r =>
      decide (r.status = .pending ∧ r.run_at ≤ now))).map Schedule.id).nodup_iff.mpr h1
  rw [List.map_take]
  exact List.Nodup.sublist (List.take_sublist _ _) h2

/-- C5: `fetch_due` returns at most `limit` records, every returned
record is `pending` and due (`run_at <= now`), and the returned list is
ordered ascending by `run_at` (so records due at T1 < T2 < T3 come back
in that order). -/
theorem fetch_due_spec (st : Store) (now : Int) (limit : Nat) :
    (fetch_due st now limit).length ≤ limit ∧
    (∀ r ∈ fetch_due st now limit, r.status = .pending ∧ r.run_at ≤ now) ∧
    (fetch_due st now limit).Pairwise fun a b => a.run_at ≤ b.run_at := by
  refine ⟨?_, fun r hr => (mem_fetch_due hr).2, ?_⟩
  · unfold fetch_due
    exact List.length_take_le _ _
  · unfold fetch_due
    apply List.Pairwise.sublist (List.take_sublist _ _)
    have hs := List.sorted_insertionSort runAtLE
      (st.recs.filter fun r => decide (r.status = .pending ∧ r.run_at ≤ now))
    exact hs.imp fun h => h

/-- C4: the cancel command leaves a missing record absent and replies
not-found with no state change; a record whose status is not `pending`
is left unchanged and its current status is reported, distinctly from a
fresh cancellation; a `pending` record is transitioned to `canceled`
solely through the conditional (`status='pending'` compare-and-set)
`cancel_schedule` update, which changes no other record. -/
theorem slash_cancel_spec (st : Store) (sid : Nat) :
    (get_schedule st sid = none → slash_cancel st sid = (st, .notFound)) ∧
    (∀ r, get_schedule st sid = some r → r.status ≠ .pending →
      slash_cancel st sid = (st, .alreadyStatus r.status) ∧
      CancelReply.alreadyStatus r.status ≠ .canceledOk sid) ∧
    (∀ r, get_schedule st sid = some r → r.status = .pending →
      (slash_cancel st sid).1 = (cancel_schedule st sid).1 ∧
      (slash_cancel st sid).2 = .canceledOk sid ∧
      statusOf (slash_cancel st sid).1 sid = some .canceled ∧
      ∀ sid2, sid2 ≠ sid →
        statusOf (slash_cancel st sid).1 sid2 = statusOf st sid2) := by
  refine ⟨fun h => by simp [slash_cancel, h], fun r hr hs => ?_, fun r hr hs => ?_⟩
  · constructor
    · simp [slash_cancel, hr, hs]
    · simp
  · have hc : slash_cancel st sid = ((cancel_schedule st sid).1, .canceledOk sid) := by
      simp [slash_cancel, hr, hs]
    refine ⟨by rw [hc], by rw [hc], ?_, ?_⟩
    · rw [hc, statusOf_cancel]
      have : statusOf st sid = some r.status := by
        unfold statusOf; rw [hr]; rfl
      rw [this, hs]
      simp
    · intro sid2 hne
      rw [hc, statusOf_cancel]
      cases hx : statusOf st sid2 with
      | none => rfl
      | some t => simp [hne]

/-- Concrete instantiation of C4: a store whose only record is already
`sent` is left unchanged and the reply names that status. -/
theorem slash_cancel_spec_witness :
    slash_cancel ⟨[⟨1, 7, some "hi", none, 0, .sent, 0⟩], 2⟩ 1 =
      (⟨[⟨1, 7, some "hi", none, 0, .sent, 0⟩], 2⟩, .alreadyStatus .sent) ∧
    CancelReply.alreadyStatus .sent ≠ .canceledOk 1 :=
  ((slash_cancel_spec ⟨[⟨1, 7, some "hi", none, 0, .sent, 0⟩], 2⟩ 1).2.1
    ⟨1, 7, some "hi", none, 0, .sent, 0⟩ (by decide) (by decide))

/-- C7: whenever the strict 12-hour parse fails (for example on
`"25:99"`), the schedule-create handler replies with the validation
error and performs no store mutation at all: no record is created and
the record count is unchanged. -/
theorem slash_scheduledm_invalid (off now : Int) (st : Store) (uid : Nat)
    (time : String) (msg url : Option String)
    (hp : parseFields time = none) :
    slash_scheduledm off now st uid time msg url = (st, .invalidTime) ∧
    (slash_scheduledm off now st uid time msg url).1.recs.length =
      st.recs.length := by
  have hT : parse_time_12h_to_utc off now time = none := by
    unfold parse_time_12h_to_utc parseTime12h
    rw [hp]
    rfl
  constructor
  · unfold slash_scheduledm
    rw [hT]
  · unfold slash_scheduledm
    rw [hT]

/-- Witness for C7 at the spec's example input `"25:99"`. -/
theorem slash_scheduledm_invalid_witness :
    slash_scheduledm 10800 0 Store.empty 7 "25:99" (some "hello") none =
      (Store.empty, .invalidTime) ∧
    (slash_scheduledm 10800 0 Store.empty 7 "25:99" (some "hello") none).1.recs.length =
      Store.empty.recs.length :=
  slash_scheduledm_invalid 10800 0 Store.empty 7 "25:99" (some "hello") none (by decide)

/-- Counterexample to C8 as stated: the schedule-create command happily
creates a record with `message` and `attachment_url` both absent (both
parameters are optional and no content validation exists), so it is not
true that at most one of the two fields can be absent. -/
theorem schedule_create_both_absent_cex :
    ((slash_scheduledm 10800 0 Store.empty 5 "02:30 PM" none none).1.recs.map
      fun r => (r.message, r.attachment_url)) = [(none, none)] := by
  decide

/-- C8 amended: records created by the schedule-create command carry the
request's optional message and attachment URL verbatim — including the
case where both are absent; the only creation-blocking validation is the
time format. -/
theorem schedule_create_fields (off now : Int) (st : Store) (uid : Nat)
    (time : String) (msg url : Option String) (u : Int)
    (hp : parse_time_12h_to_utc off now time = some u) :
    (slash_scheduledm off now st uid time msg url).1.recs =
      st.recs ++ [⟨st.nextId, uid, msg, url, u, .pending, now⟩] ∧
    (slash_scheduledm off now st uid time msg url).2 =
      .scheduled st.nextId (pretty_time_local off u) := by
  unfold slash_scheduledm
  rw [hp]
  exact ⟨rfl, rfl⟩

/-- Witness for the amended C8 with both optional fields absent. -/
theorem schedule_create_fields_witness :
    (slash_scheduledm 10800 0 Store.empty 5 "02:30 PM" none none).1.recs =
      Store.empty.recs ++ [⟨Store.empty.nextId, 5, none, none, 41400, .pending, 0⟩] ∧
    (slash_scheduledm 10800 0 Store.empty 5 "02:30 PM" none none).2 =
      .scheduled Store.empty.nextId (pretty_time_local 10800 41400) :=
  schedule_create_fields 10800 0 Store.empty 5 "02:30 PM" none none 41400 (by decide)

/-! ## Poll-loop lemmas -/

theorem statusOf_process_one_other (env : Nat → Option String)
    (acc : Store × List String) (x : Schedule) (sid : Nat) (hne : x.id ≠ sid) :
    statusOf (process_one env acc x).1 sid = statusOf acc.1 sid := by
  have hne2 : sid ≠ x.id := fun e => hne e.symm
  unfold process_one
  cases env x.id <;> simp [statusOf_mark, hne2]

theorem statusOf_foldl_untouched (env : Nat → Option String)
    (rows : List Schedule) (acc : Store × List String) (sid : Nat)
    (h : ∀ r ∈ rows, r.id ≠ sid) :
    statusOf (rows.foldl (process_one env) acc).1 sid = statusOf acc.1 sid := by
  induction rows generalizing acc with
  | nil => rfl
  | cons x rs ih =>
    rw [List.foldl_cons, ih _ fun r hr => h r (List.mem_cons_of_mem _ hr)]
    exact statusOf_process_one_other env acc x sid (h x (List.mem_cons_self _ _))

theorem statusOf_foldl_mem (env : Nat → Option String) (rows : List Schedule)
    (acc : Store × List String) (r : Schedule) (hmem : r ∈ rows)
    (hnd : (rows.map Schedule.id).Nodup) :
    statusOf (rows.foldl (process_one env) acc).1 r.id =
      (statusOf acc.1 r.id).map fun _ =>
        match env r.id with | none => Status.sent | some _ => Status.failed := by
  induction rows generalizing acc with
  | nil => cases hmem
  | cons x rs ih =>
    simp only [List.map_cons, List.nodup_cons] at hnd
    rw [List.foldl_cons]
    rcases List.mem_cons.mp hmem with rfl | hmem2
    · rw [statusOf_foldl_untouched env rs _ r.id
        fun y hy e => hnd.1 (e ▸ List.mem_map_of_mem _ hy)]
      unfold process_one
      cases he : env r.id <;>
        simp [he, statusOf_mark, Option.map_map, Function.comp]
    · have hne : x.id ≠ r.id := fun e => hnd.1 (e ▸ List.mem_map_of_mem _ hmem2)
      rw [ih _ hmem2 hnd.2, statusOf_process_one_other env acc x r.id hne]

theorem log_foldl_mono (env : Nat → Option String) (rows : List Schedule)
    (acc : Store × List String) (x : String) (hx : x ∈ acc.2) :
    x ∈ (rows.foldl (process_one env) acc).2 := by
  induction rows generalizing acc with
  | nil => exact hx
  | cons r rs ih =>
    rw [List.foldl_cons]
    apply ih
    unfold process_one
    cases env r.id <;> simp [hx]

theorem log_foldl_mem (env : Nat → Option String) (rows : List Schedule)
    (acc : Store × List String) (r : Schedule) (hmem : r ∈ rows) (e : String)
    (he : env r.id = some e) :
    deliver_log r.id r.user_id e ∈ (rows.foldl (process_one env) acc).2 := by
  induction rows generalizing acc with
  | nil => cases hmem
  | cons x rs ih =>
    rw [List.foldl_cons]
    rcases List.mem_cons.mp hmem with rfl | hmem2
    · apply log_foldl_mono
      unfold process_one
      rw [he]
      simp
    · exact ih _ hmem2

/-- C3: in one poll tick, every fetched due record gets a final verdict
regardless of what happens to the other records of the batch — the
record whose delivery attempt raises is marked `failed` and a diagnostic
carrying its id, its recipient id, and the error detail is appended to
the log, while a record whose delivery succeeds is marked `sent`; the
fold is a total function, i.e. no exception escapes the tick, and the
statement holds for every member of the batch, so a failure never stops
the processing of subsequent records. -/
theorem process_due_isolates (env : Nat → Option String) (st : Store)
    (now : Int) (hnd : (st.recs.map Schedule.id).Nodup) :
    ∀ r ∈ fetch_due st now 30,
      statusOf (process_due env st now).1 r.id =
        some (match env r.id with | none => Status.sent | some _ => Status.failed) ∧
      ∀ e, env r.id = some e →
        deliver_log r.id r.user_id e ∈ (process_due env st now).2 ∧
        deliver_log r.id r.user_id e =
          "Failed to send schedule " ++ toString r.id ++ " to " ++
            toString r.user_id ++ ": " ++ e := by
  intro r hr
  constructor
  · unfold process_due
    rw [statusOf_foldl_mem env _ _ r hr (fetch_due_ids_nodup hnd now 30)]
    have hst : statusOf st r.id = some r.status := by
      unfold statusOf
      rw [get_schedule_of_mem hnd (mem_fetch_due hr).1]
      rfl
    rw [hst]
    rfl
  · intro e he
    exact ⟨log_foldl_mem env _ _ r hr e he, rfl⟩

/-- Witness for C3: a two-record batch where the first delivery raises
`"boom"` and the second succeeds; the first ends `failed` with its
diagnostic logged, the second still ends `sent`. -/
theorem process_due_isolates_witness :
    statusOf (process_due (fun sid => if sid = 1 then some "boom" else none)
        ⟨[⟨1, 7, some "a", none, 0, .pending, 0⟩,
          ⟨2, 8, none, some "u", 1, .pending, 0⟩], 3⟩ 5).1 1 = some .failed ∧
    deliver_log 1 7 "boom" ∈
      (process_due (fun sid => if sid = 1 then some "boom" else none)
        ⟨[⟨1, 7, some "a", none, 0, .pending, 0⟩,
          ⟨2, 8, none, some "u", 1, .pending, 0⟩], 3⟩ 5).2 ∧
    statusOf (process_due (fun sid => if sid = 1 then some "boom" else none)
        ⟨[⟨1, 7, some "a", none, 0, .pending, 0⟩,
          ⟨2, 8, none, some "u", 1, .pending, 0⟩], 3⟩ 5).1 2 = some .sent := by
  have H := process_due_isolates (fun sid => if sid = 1 then some "boom" else none)
    ⟨[⟨1, 7, some "a", none, 0, .pending, 0⟩,
      ⟨2, 8, none, some "u", 1, .pending, 0⟩], 3⟩ 5 (by decide)
  have hfd : fetch_due ⟨[⟨1, 7, some "a", none, 0, .pending, 0⟩,
      ⟨2, 8, none, some "u", 1, .pending, 0⟩], 3⟩ 5 30 =
      [⟨1, 7, some "a", none, 0, .pending, 0⟩,
       ⟨2, 8, none, some "u", 1, .pending, 0⟩] := by decide
  have h1 := H ⟨1, 7, some "a", none, 0, .pending, 0⟩
    (by rw [hfd]; exact List.mem_cons_self _ _)
  have h2 := H ⟨2, 8, none, some "u", 1, .pending, 0⟩
    (by rw [hfd]; exact List.mem_cons_of_mem _ (List.mem_cons_self _ _))
  exact ⟨by simpa using h1.1, (h1.2 "boom" (by decide)).1, by simpa using h2.1⟩

/-! ## Status-transition discipline (C2) -/

theorem StoreWF_map (st : Store) (f : Schedule → Schedule)
    (hf : ∀ r, (f r).id = r.id) (h : StoreWF st) :
    StoreWF ⟨st.recs.map f, st.nextId⟩ := by
  constructor
  · have e : (st.recs.map f).map Schedule.id = st.recs.map Schedule.id := by
      rw [List.map_map]
      exact List.map_congr_left fun r _ => hf r
    rw [e]
    exact h.1
  · intro x hx
    obtain ⟨y, hy, rfl⟩ := List.mem_map.mp hx
    rw [hf]
    exact h.2 y hy

theorem StoreWF_mark (st : Store) (sid : Nat) (stt : Status) (h : StoreWF st) :
    StoreWF (mark_sent st sid stt) :=
  StoreWF_map st _ (fun r => by split <;> rfl) h

theorem StoreWF_cancel (st : Store) (sid : Nat) (h : StoreWF st) :
    StoreWF (cancel_schedule st sid).1 :=
  StoreWF_map st _ (fun r => by split <;> rfl) h

theorem StoreWF_add (st : Store) (uid : Nat) (t : Int) (msg att : Option String)
    (now : Int) (h : StoreWF st) :
    StoreWF (add_schedule st uid t msg att now).1 := by
  constructor
  · unfold add_schedule
    simp only [List.map_append, List.map_cons, List.map_nil]
    rw [List.nodup_append]
    refine ⟨h.1, List.nodup_singleton _, ?_⟩
    intro a ha hb
    simp only [List.mem_singleton] at hb
    subst hb
    obtain ⟨y, hy, he⟩ := List.mem_map.mp ha
    exact absurd he (Nat.ne_of_lt (h.2 y hy))
  · intro x hx
    unfold add_schedule at hx
    simp only [List.mem_append, List.mem_singleton] at hx
    rcases hx with hx | rfl
    · exact Nat.lt_succ_of_lt (h.2 x hx)
    · exact Nat.lt_succ_self _

theorem SysWF_step (s : Sys) (hWF : SysWF s) (op : Op) : SysWF (s.step op) := by
  obtain ⟨hst, hnd, hin⟩ := hWF
  cases op with
  | add uid rt msg att now =>
    refine ⟨StoreWF_add _ _ _ _ _ _ hst, hnd, ?_⟩
    intro r hr
    rcases hin r hr with h | h
    · exact Or.inl (statusOf_add _ _ _ _ _ _ _ _ h)
    · exact Or.inr (statusOf_add _ _ _ _ _ _ _ _ h)
  | tick_start now =>
    have hstep : s.step (.tick_start now) =
        if s.inflight.isEmpty then { s with inflight := fetch_due s.store now 30 }
        else s := rfl
    rw [hstep]
    split
    · refine ⟨hst, fetch_due_ids_nodup hst.1 now 30, ?_⟩
      intro r hr
      have hr2 : r ∈ fetch_due s.store now 30 := hr
      left
      unfold statusOf
      rw [get_schedule_of_mem hst.1 (mem_fetch_due hr2).1, Option.map_some',
        (mem_fetch_due hr2).2.1]
    · exact ⟨hst, hnd, hin⟩
  | deliver ok =>
    cases hfl : s.inflight with
    | nil =>
      have hstep : s.step (.deliver ok) = s := by
        simp only [Sys.step, hfl]
      rw [hstep]
      exact ⟨hst, hnd, hin⟩
    | cons r rest =>
      have hstep : s.step (.deliver ok) =
          ⟨mark_sent s.store r.id (if ok then .sent else .failed), rest⟩ := by
        simp only [Sys.step, hfl]
      rw [hstep]
      rw [hfl] at hnd hin
      simp only [List.map_cons, List.nodup_cons] at hnd
      refine ⟨StoreWF_mark _ _ _ hst, hnd.2, ?_⟩
      intro x hx
      have hne : x.id ≠ r.id :=
        fun e => hnd.1 (e ▸ List.mem_map_of_mem _ hx)
      have heq : statusOf (mark_sent s.store r.id (if ok then .sent else .failed)) x.id
          = statusOf s.store x.id := by
        rw [statusOf_mark]
        cases hy : statusOf s.store x.id with
        | none => rfl
        | some t => simp [hne]
      rw [heq]
      exact hin x (List.mem_cons_of_mem _ hx)
  | cancel sid =>
    refine ⟨StoreWF_cancel _ _ hst, hnd, ?_⟩
    intro r hr
    have hr2 : r ∈ s.inflight := hr
    show statusOf (cancel_schedule s.store sid).1 r.id = some Status.pending ∨
      statusOf (cancel_schedule s.store sid).1 r.id = some Status.canceled
    rw [statusOf_cancel]
    rcases hin r hr2 with h | h <;> rw [h]
    · by_cases hc : r.id = sid
      · right; simp [hc]
      · left; simp [hc]
    · right; simp

theorem SysWF_runFrom (s : Sys) (hWF : SysWF s) (ops : List Op) :
    SysWF (s.run ops) := by
  induction ops generalizing s with
  | nil => exact hWF
  | cons op ops ih => exact ih _ (SysWF_step s hWF op)

theorem SysWF_run (ops : List Op) : SysWF (Sys.initial.run ops) := by
  apply SysWF_runFrom
  refine ⟨⟨by decide, ?_⟩, by decide, ?_⟩
  · intro r hr
    exact absurd hr (List.not_mem_nil r)
  · intro r hr
    exact absurd hr (List.not_mem_nil r)

theorem step_status_change (s : Sys) (hWF : SysWF s) (op : Op) (sid : Nat)
    (t u : Status) (ht : statusOf s.store sid = some t)
    (hu : statusOf (s.step op).store sid = some u) (hne : u ≠ t) :
    (t = .pending ∧ (u = .sent ∨ u = .failed ∨ u = .canceled)) ∨
    (t = .canceled ∧ (u = .sent ∨ u = .failed) ∧
      sid ∈ s.inflight.map Schedule.id) := by
  cases op with
  | add uid rt msg att now =>
    have hpres : statusOf (s.step (.add uid rt msg att now)).store sid = some t :=
      statusOf_add _ _ _ _ _ _ _ _ ht
    rw [hpres] at hu
    exact absurd (Option.some.inj hu).symm hne
  | tick_start now =>
    have hstep : (s.step (.tick_start now)).store = s.store := by
      simp only [Sys.step]
      split <;> rfl
    rw [hstep, ht] at hu
    exact absurd (Option.some.inj hu).symm hne
  | cancel sid2 =>
    have hstep : (s.step (.cancel sid2)).store = (cancel_schedule s.store sid2).1 :=
      rfl
    rw [hstep, statusOf_cancel, ht, Option.map_some'] at hu
    have hu2 := Option.some.inj hu
    by_cases hc : sid = sid2 ∧ t = Status.pending
    · rw [if_pos hc] at hu2
      exact Or.inl ⟨hc.2, Or.inr (Or.inr hu2.symm)⟩
    · rw [if_neg hc] at hu2
      exact absurd hu2.symm hne
  | deliver ok =>
    cases hfl : s.inflight with
    | nil =>
      have hstep : s.step (.deliver ok) = s := by
        simp only [Sys.step, hfl]
      rw [hstep, ht] at hu
      exact absurd (Option.some.inj hu).symm hne
    | cons r rest =>
      have hstep : (s.step (.deliver ok)).store =
          mark_sent s.store r.id (if ok then .sent else .failed) := by
        simp only [Sys.step, hfl]
      rw [hstep, statusOf_mark, ht, Option.map_some'] at hu
      have hu2 := Option.some.inj hu
      by_cases hc : sid = r.id
      · rw [if_pos hc] at hu2
        have huu : u = Status.sent ∨ u = Status.failed := by
          cases ok
          · right; simpa using hu2.symm
          · left; simpa using hu2.symm
        have hrt := hWF.2.2 r (by rw [hfl]; exact List.mem_cons_self _ _)
        rw [← hc, ht] at hrt
        have hmem : sid ∈ (r :: rest).map Schedule.id := by
          rw [List.map_cons, hc]
          exact List.mem_cons_self _ _
        rcases hrt with h | h
        · exact Or.inl ⟨Option.some.inj h,
            huu.elim Or.inl fun e => Or.inr (Or.inl e)⟩
        · exact Or.inr ⟨Option.some.inj h, huu, hmem⟩
      · rw [if_neg hc] at hu2
        exact absurd hu2.symm hne

/-- Counterexample to C2 as stated: a record canceled between a tick's
`fetch_due` and its `mark_sent` (a real interleaving: `process_due`
awaits `fetch_user`/`send` between the two, letting the `/cancel`
handler run) is afterwards overwritten to `sent` by the unconditional
`mark_sent` — a transition out of the terminal status `canceled`. -/
theorem terminal_status_overwritten_cex :
    statusOf (Sys.initial.run
      [.add 5 0 (some "hi") none 0, .tick_start 10, .cancel 1]).store 1 =
      some .canceled ∧
    statusOf ((Sys.initial.run
      [.add 5 0 (some "hi") none 0, .tick_start 10, .cancel 1]).step
        (.deliver true)).store 1 = some .sent := by
  decide

/-- C2 amended: along every operation sequence from the empty store,
a status change is either the creation-state `pending` moving to
`sent`, `failed`, or `canceled`, or — the one exception the
unconditional poll-side `mark_sent` admits — a record that was
`canceled` while sitting in the current tick's already-fetched
in-flight batch being overwritten to `sent` or `failed` by that tick. -/
theorem status_transition_amended (ops : List Op) (op : Op) (sid : Nat)
    (t u : Status) (ht : statusOf (Sys.initial.run ops).store sid = some t)
    (hu : statusOf ((Sys.initial.run ops).step op).store sid = some u)
    (hne : u ≠ t) :
    (t = .pending ∧ (u = .sent ∨ u = .failed ∨ u = .canceled)) ∨
    (t = .canceled ∧ (u = .sent ∨ u = .failed) ∧
      sid ∈ (Sys.initial.run ops).inflight.map Schedule.id) :=
  step_status_change _ (SysWF_run ops) op sid t u ht hu hne

/-- Witness for the amended C2: a fresh pending record canceled by the
cancel operation — the `pending → canceled` half of the discipline. -/
theorem status_transition_amended_witness :
    (Status.pending = .pending ∧
      (Status.canceled = .sent ∨ Status.canceled = .failed ∨
        Status.canceled = .canceled)) ∨
    (Status.pending = .canceled ∧
      (Status.canceled = .sent ∨ Status.canceled = .failed) ∧
      1 ∈ (Sys.initial.run [Op.add 5 0 (some "hi") none 0]).inflight.map
        Schedule.id) :=
  status_transition_amended [Op.add 5 0 (some "hi") none 0] (.cancel 1) 1
    .pending .canceled (by decide) (by decide) (by decide)

/-! ## Filename derivation (C9) -/

theorem splitChar_ne_nil (c : Char) (l : List Char) : splitChar c l ≠ [] := by
  cases l with
  | nil => simp [splitChar]
  | cons x xs =>
    simp only [splitChar]
    split <;> simp

theorem takeWhile_append_sing_false {α : Type} (p : α → Bool) (l : List α)
    (a : α) (ha : p a = false) :
    (l ++ [a]).takeWhile p = l.takeWhile p := by
  induction l with
  | nil => simp [List.takeWhile_cons, ha]
  | cons y ys ih =>
    by_cases hy : p y
    · simp [List.takeWhile_cons, hy, ih]
    · simp [List.takeWhile_cons, hy]

theorem takeWhile_append_of_false {α : Type} (p : α → Bool) {l1 : List α}
    (l2 : List α) {a : α} (ha : a ∈ l1) (hpa : p a = false) :
    (l1 ++ l2).takeWhile p = l1.takeWhile p := by
  induction l1 with
  | nil => cases ha
  | cons y ys ih =>
    by_cases hy : p y
    · rcases List.mem_cons.mp ha with rfl | h2
      · rw [hy] at hpa; cases hpa
      · simp [List.takeWhile_cons, hy, ih h2]
    · simp [List.takeWhile_cons, hy]

theorem takeWhile_append_all {α : Type} (p : α → Bool) (l1 l2 : List α)
    (h : ∀ x ∈ l1, p x = true) :
    (l1 ++ l2).takeWhile p = l1 ++ l2.takeWhile p := by
  induction l1 with
  | nil => rfl
  | cons y ys ih =>
    have hy := h y (List.mem_cons_self _ _)
    simp [List.takeWhile_cons, hy, ih fun x hx => h x (List.mem_cons_of_mem _ hx)]

theorem headD_splitChar (c : Char) (l : List Char) :
    (splitChar c l).headD [] = l.takeWhile fun x => x != c := by
  induction l with
  | nil => rfl
  | cons x xs ih =>
    simp only [splitChar]
    by_cases hc : x = c
    · subst hc
      simp [List.takeWhile_cons]
    · rw [if_neg hc]
      cases hx : splitChar c xs with
      | nil => exact absurd hx (splitChar_ne_nil c xs)
      | cons h t =>
        rw [hx] at ih
        simp only [List.headD_cons] at ih ⊢
        simp [List.takeWhile_cons, hc, ih]

theorem splitChar_eq_single {c : Char} {xs h : List Char}
    (he : splitChar c xs = [h]) : h = xs ∧ ∀ y ∈ xs, y ≠ c := by
  induction xs generalizing h with
  | nil =>
    simp only [splitChar, List.cons.injEq] at he
    exact ⟨he.1.symm, by simp⟩
  | cons y ys ih =>
    simp only [splitChar] at he
    by_cases hy : y = c
    · rw [if_pos hy] at he
      exact absurd (List.cons.injEq .. ▸ he).2 (splitChar_ne_nil c ys)
    · rw [if_neg hy] at he
      cases hx : splitChar c ys with
      | nil => exact absurd hx (splitChar_ne_nil c ys)
      | cons h2 t2 =>
        rw [hx] at he
        simp only [List.headD_cons, List.tail_cons, List.cons.injEq] at he
        obtain ⟨he1, he2⟩ := he
        subst he2
        obtain ⟨hh, hall⟩ := ih hx
        subst hh
        refine ⟨he1.symm, ?_⟩
        intro z hz
        rcases List.mem_cons.mp hz with rfl | h3
        · exact hy
        · exact hall z h3

theorem mem_of_splitChar_two {c : Char} {xs h : List Char}
    {t : List (List Char)} (hx : splitChar c xs = h :: t) (ht : t ≠ []) :
    c ∈ xs := by
  induction xs generalizing h t with
  | nil =>
    simp only [splitChar, List.cons.injEq] at hx
    exact absurd hx.2.symm ht
  | cons y ys ih =>
    simp only [splitChar] at hx
    by_cases hy : y = c
    · exact hy ▸ List.mem_cons_self _ _
    · rw [if_neg hy] at hx
      cases h2 : splitChar c ys with
      | nil => exact absurd h2 (splitChar_ne_nil c ys)
      | cons hh tt =>
        rw [h2] at hx
        simp only [List.headD_cons, List.tail_cons, List.cons.injEq] at hx
        exact List.mem_cons_of_mem _ (ih h2 (hx.2 ▸ ht))

theorem getLastD_splitChar (c : Char) (l : List Char) :
    (splitChar c l).getLastD [] =
      (l.reverse.takeWhile fun x => x != c).reverse := by
  induction l with
  | nil => rfl
  | cons x xs ih =>
    simp only [splitChar]
    by_cases hc : x = c
    · subst hc
      rw [if_pos rfl, List.getLastD_cons, ih, List.reverse_cons,
        takeWhile_append_sing_false _ _ _ (by simp)]
    · rw [if_neg hc]
      cases hx : splitChar c xs with
      | nil => exact absurd hx (splitChar_ne_nil c xs)
      | cons h t =>
        rw [hx] at ih
        simp only [List.headD_cons, List.tail_cons]
        cases t with
        | nil =>
          obtain ⟨rfl, hall⟩ := splitChar_eq_single hx
          have hgl : (((x :: h) :: ([] : List (List Char))).getLastD []) = x :: h := rfl
          rw [hgl, List.reverse_cons,
            takeWhile_append_all _ _ _ ?_]
          · have hx2 : ((([x] : List Char)).takeWhile fun y => y != c) = [x] := by
              simp [List.takeWhile_cons, hc]
            rw [hx2]
            simp
          · intro y hy
            have := hall y (List.mem_reverse.mp hy)
            simp [this]
        | cons t1 t2 =>
          have hcm : c ∈ xs := mem_of_splitChar_two hx (by simp)
          have hgl : (((x :: h) :: t1 :: t2).getLastD []) = ((h :: t1 :: t2).getLastD []) := by
            simp only [List.getLastD_cons]
          rw [hgl, ih, List.reverse_cons,
            takeWhile_append_of_false _ _ (List.mem_reverse.mpr hcm) (by simp)]

/-- C9: the filename `download_bytes` computes —
`url.split("?")[0].split("/")[-1] or "file"` — is exactly the last
path segment of the URL after stripping everything from the first `?`
on, with the generic name `file` substituted when that segment is
empty. -/
theorem download_filename_correct (l : List Char) :
    filename_of_url l = filename_spec l := by
  simp only [filename_of_url, filename_spec, headD_splitChar, getLastD_splitChar]

end FluffyBot
